import Mathlib

/-!
Verification of the code-executor service (codeexecutor/main.py):
the expression-print transformer, the sandboxed execution engine's
outcome computation, and the denylist security gate.

Text is modelled as `List Char`; Python string operations (`strip`,
`rstrip`, `split('\n')`, `'\n'.join`, `lower`, `startswith`, `in`)
are given as executable Lean functions over this representation.
-/

abbrev Text := List Char

def txt (s : String) : Text := s.toList

/-- Whitespace characters recognised by Python's default `str.strip`
(restricted to the ASCII range, which covers all inputs of interest). -/
def isPySpace (c : Char) : Bool :=
  c = ' ' || c = '\t' || c = '\n' || c = '\r' || c = '\x0b' || c = '\x0c'

/-- Python `str.lstrip()`. -/
def lstrip (l : Text) : Text := l.dropWhile isPySpace

/-- Python `str.rstrip()`, written as structural recursion. -/
def rstrip : Text → Text
  | [] => []
  | c :: t =>
    let r := rstrip t
    if r.isEmpty then (if isPySpace c then [] else [c]) else c :: r

/-- Python `str.strip()`. -/
def strip (l : Text) : Text := lstrip (rstrip l)

/-- Python `str.rstrip('\n')`: remove every trailing newline character. -/
def rstripNl : Text → Text
  | [] => []
  | c :: t =>
    let r := rstripNl t
    if r.isEmpty then (if c = '\n' then [] else [c]) else c :: r

/-- Python `str.lower()` (ASCII case folding). -/
def lower (l : Text) : Text := l.map Char.toLower

/-- Python `str.startswith(p)`: `startsT p l` holds when `p` begins `l`. -/
def startsT : Text → Text → Bool
  | [], _ => true
  | _ :: _, [] => false
  | a :: as, b :: bs => a == b && startsT as bs

/-- Python substring test `p in l`. -/
def containsSub (p : Text) : Text → Bool
  | [] => p.isEmpty
  | c :: rest => startsT p (c :: rest) || containsSub p rest

/-- Python `str.split('\n')`. -/
def splitLines : Text → List Text
  | [] => [[]]
  | c :: rest =>
    if c = '\n' then [] :: splitLines rest
    else
      match splitLines rest with
      | [] => [[c]]
      | h :: t => (c :: h) :: t

/-- Python `'\n'.join(ls)`. -/
def joinLines : List Text → Text
  | [] => []
  | [l] => l
  | l :: l' :: ls => l ++ '\n' :: joinLines (l' :: ls)

/-- The non-blank lines of a text, each stripped: the common shape of the
line lists computed by the transformer. -/
def nonBlankStripped (l : Text) : List Text :=
  ((splitLines l).map strip).filter (fun x => !x.isEmpty)

-- ### Basic lemmas about the text operations

theorem startsT_iff (p l : Text) : startsT p l = true ↔ ∃ t, l = p ++ t := by
  induction p generalizing l with
  | nil => simp [startsT]
  | cons a as ih =>
    cases l with
    | nil => simp [startsT]
    | cons b bs =>
      simp only [startsT, Bool.and_eq_true, beq_iff_eq]
      constructor
      · rintro ⟨rfl, h⟩
        obtain ⟨t, rfl⟩ := (ih bs).mp h
        exact ⟨t, rfl⟩
      · rintro ⟨t, ht⟩
        cases ht
        exact ⟨rfl, (ih _).mpr ⟨t, rfl⟩⟩

theorem containsSub_iff (p l : Text) :
    containsSub p l = true ↔ ∃ a b, l = a ++ p ++ b := by
  induction l with
  | nil =>
    simp only [containsSub, List.isEmpty_iff]
    constructor
    · rintro rfl; exact ⟨[], [], rfl⟩
    · rintro ⟨a, b, h⟩
      rcases List.append_eq_nil.mp ((List.append_eq_nil).mp h.symm).1 with ⟨_, h2⟩
      exact h2
  | cons c rest ih =>
    simp only [containsSub, Bool.or_eq_true, startsT_iff, ih]
    constructor
    · rintro (⟨t, ht⟩ | ⟨a, b, hab⟩)
      · exact ⟨[], t, by simp [ht]⟩
      · exact ⟨c :: a, b, by simp [hab]⟩
    · rintro ⟨a, b, hab⟩
      cases a with
      | nil => exact Or.inl ⟨b, by simpa using hab⟩
      | cons x xs =>
        simp only [List.cons_append] at hab
        obtain ⟨rfl, h2⟩ := List.cons_eq_cons.mp hab
        exact Or.inr ⟨xs, b, by simp [h2]⟩

theorem containsSub_nil_iff (p : Text) : containsSub p [] = true ↔ p = [] := by
  simp [containsSub, List.isEmpty_iff]

theorem rstrip_concat_space {c : Char} (hc : isPySpace c = true) (l : Text) :
    rstrip (l ++ [c]) = rstrip l := by
  induction l with
  | nil => simp [rstrip, hc]
  | cons d t ih => simp [rstrip, ih]

theorem rstrip_concat_nonspace {c : Char} (hc : isPySpace c = false) (l : Text) :
    rstrip (l ++ [c]) = l ++ [c] := by
  induction l with
  | nil => simp [rstrip, hc]
  | cons d t ih =>
    show rstrip (d :: (t ++ [c])) = d :: (t ++ [c])
    simp only [rstrip, ih]
    have hne : (t ++ [c]).isEmpty = false := by simp
    simp [hne]

theorem rstrip_decomp (l : Text) :
    ∃ w, l = rstrip l ++ w ∧ ∀ c ∈ w, isPySpace c = true := by
  induction l with
  | nil => exact ⟨[], rfl, by simp⟩
  | cons c t ih =>
    obtain ⟨w, hw, hws⟩ := ih
    by_cases hr : rstrip t = []
    · by_cases hc : isPySpace c = true
      · refine ⟨c :: t, ?_, ?_⟩
        · simp [rstrip, hr, hc]
        · intro d hd
          rcases List.mem_cons.mp hd with rfl | hd
          · exact hc
          · rw [hw, hr] at hd; simpa using hws d hd
      · refine ⟨w, ?_, hws⟩
        simp only [rstrip, hr]
        simp only [List.isEmpty_nil, if_true]
        rw [if_neg hc]
        rw [hw, hr]
        simp
    · refine ⟨w, ?_, hws⟩
      simp only [rstrip]
      rw [if_neg (by simpa using hr)]
      rw [List.cons_append, ← hw]

theorem rstrip_idem (l : Text) : rstrip (rstrip l) = rstrip l := by
  induction l with
  | nil => rfl
  | cons c t ih =>
    by_cases hr : rstrip t = []
    · by_cases hc : isPySpace c = true
      · simp [rstrip, hr, hc]
      · simp [rstrip, hr, hc]
    · have h1 : rstrip (c :: t) = c :: rstrip t := by
        simp only [rstrip]
        rw [if_neg (by simpa using hr)]
      rw [h1]
      simp only [rstrip]
      rw [ih]
      rw [if_neg (by simpa using hr)]

theorem lstrip_append_space (w l : Text) (hw : ∀ c ∈ w, isPySpace c = true) :
    lstrip (w ++ l) = lstrip l := by
  induction w with
  | nil => rfl
  | cons c t ih =>
    have hc := hw c (by simp)
    simp only [List.cons_append, lstrip, List.dropWhile_cons, hc, if_true]
    exact ih (fun d hd => hw d (by simp [hd]))

theorem lstrip_decomp (l : Text) :
    ∃ w, l = w ++ lstrip l ∧ ∀ c ∈ w, isPySpace c = true := by
  refine ⟨l.takeWhile isPySpace, ?_, ?_⟩
  · rw [lstrip, List.takeWhile_append_dropWhile]
  · intro c hc
    exact List.mem_takeWhile_imp hc

theorem strip_rstrip (l : Text) : strip (rstrip l) = strip l := by
  simp [strip, rstrip_idem]

theorem strip_concat_space {c : Char} (hc : isPySpace c = true) (l : Text) :
    strip (l ++ [c]) = strip l := by
  simp [strip, rstrip_concat_space hc]

theorem strip_cons_space {c : Char} (hc : isPySpace c = true) (l : Text) :
    strip (c :: l) = strip l := by
  by_cases hr : rstrip l = []
  · simp [strip, rstrip, hr, hc, lstrip]
  · have h1 : rstrip (c :: l) = c :: rstrip l := by
      simp only [rstrip]
      rw [if_neg (by simpa using hr)]
    simp only [strip, h1]
    exact lstrip_append_space [c] _ (by simpa using hc)

theorem strip_append_space_left (w l : Text) (hw : ∀ c ∈ w, isPySpace c = true) :
    strip (w ++ l) = strip l := by
  induction w with
  | nil => rfl
  | cons c t ih =>
    rw [List.cons_append, strip_cons_space (hw c (by simp))]
    exact ih (fun d hd => hw d (by simp [hd]))

theorem strip_all_space (l : Text) (hl : ∀ c ∈ l, isPySpace c = true) :
    strip l = [] := by
  have := strip_append_space_left l [] hl
  simpa [strip, rstrip, lstrip] using this

theorem mem_strip {c : Char} {l : Text} (hc : isPySpace c = false)
    (hmem : c ∈ l) : c ∈ strip l := by
  obtain ⟨w, hw, hws⟩ := rstrip_decomp l
  obtain ⟨v, hv, hvs⟩ := lstrip_decomp (rstrip l)
  have h1 : c ∈ rstrip l := by
    rw [hw] at hmem
    rcases List.mem_append.mp hmem with h | h
    · exact h
    · exact absurd (hws c h) (by simp [hc])
  rw [hv] at h1
  rcases List.mem_append.mp h1 with h | h
  · exact absurd (hvs c h) (by simp [hc])
  · exact h

theorem strip_ne_nil_of_mem {c : Char} {l : Text} (hc : isPySpace c = false)
    (hmem : c ∈ l) : strip l ≠ [] := by
  intro h
  have := mem_strip hc hmem
  rw [h] at this
  exact absurd this (by simp)

-- ### Lemmas about line splitting and joining

theorem splitLines_ne_nil (l : Text) : splitLines l ≠ [] := by
  induction l with
  | nil => simp [splitLines]
  | cons c rest ih =>
    by_cases hc : c = '\n'
    · simp [splitLines, hc]
    · simp only [splitLines, if_neg hc]
      cases h : splitLines rest with
      | nil => simp
      | cons a b => simp

theorem splitLines_cons_ne {c : Char} (hc : c ≠ '\n') {rest : Text}
    {h : Text} {t : List Text} (hs : splitLines rest = h :: t) :
    splitLines (c :: rest) = (c :: h) :: t := by
  simp [splitLines, hc, hs]

theorem splitLines_no_newline {l : Text} (h : '\n' ∉ l) : splitLines l = [l] := by
  induction l with
  | nil => rfl
  | cons c rest ih =>
    have hc : c ≠ '\n' := fun hh => h (by simp [hh])
    have hr : splitLines rest = [rest] := ih (fun hh => h (by simp [hh]))
    rw [splitLines_cons_ne hc hr]

theorem splitLines_append_newline (a b : Text) :
    splitLines (a ++ '\n' :: b) = splitLines a ++ splitLines b := by
  induction a with
  | nil => simp [splitLines]
  | cons c a' ih =>
    by_cases hc : c = '\n'
    · subst hc
      have e1 : splitLines ('\n' :: (a' ++ '\n' :: b)) =
          [] :: splitLines (a' ++ '\n' :: b) := by
        simp [splitLines]
      have e2 : splitLines ('\n' :: a') = [] :: splitLines a' := by
        simp [splitLines]
      rw [List.cons_append, e1, ih, e2, List.cons_append]
    · cases h : splitLines a' with
      | nil => exact absurd h (splitLines_ne_nil a')
      | cons h1 t1 =>
        rw [h] at ih
        have h2 : splitLines (a' ++ '\n' :: b) = (h1 :: t1) ++ splitLines b := ih
        cases hsb : splitLines b with
        | nil => exact absurd hsb (splitLines_ne_nil b)
        | cons hb tb =>
          rw [hsb] at h2
          rw [List.cons_append,
            splitLines_cons_ne hc (by rw [h2]; rfl), splitLines_cons_ne hc h]
          simp

theorem splitLines_concat_ne {c : Char} (hc : c ≠ '\n') (x : Text) :
    ∃ ys y, splitLines x = ys ++ [y] ∧ splitLines (x ++ [c]) = ys ++ [y ++ [c]] := by
  induction x with
  | nil => exact ⟨[], [], rfl, by simp [splitLines, hc]⟩
  | cons d x' ih =>
    obtain ⟨ys, y, h1, h2⟩ := ih
    by_cases hd : d = '\n'
    · subst hd
      refine ⟨[] :: ys, y, ?_, ?_⟩
      · simp [splitLines, h1]
      · simp [splitLines, h2]
    · cases ys with
      | nil =>
        refine ⟨[], d :: y, ?_, ?_⟩
        · simp only [List.nil_append] at h1
          rw [splitLines_cons_ne hd h1]
          simp
        · simp only [List.nil_append] at h2
          rw [List.cons_append, splitLines_cons_ne hd h2]
          simp
      | cons z ys' =>
        refine ⟨(d :: z) :: ys', y, ?_, ?_⟩
        · rw [splitLines_cons_ne hd (by rw [h1]; rfl)]
          simp
        · rw [List.cons_append, splitLines_cons_ne hd (by rw [h2]; rfl)]
          simp

theorem mem_splitLines_no_nl {line : Text} {l : Text}
    (h : line ∈ splitLines l) : '\n' ∉ line := by
  induction l generalizing line with
  | nil =>
    simp only [splitLines, List.mem_singleton] at h
    subst h; simp
  | cons c rest ih =>
    by_cases hc : c = '\n'
    · subst hc
      have e : splitLines ('\n' :: rest) = [] :: splitLines rest := by
        simp [splitLines]
      rw [e] at h
      rcases List.mem_cons.mp h with h | h
      · subst h; simp
      · exact ih h
    · cases hs : splitLines rest with
      | nil => exact absurd hs (splitLines_ne_nil rest)
      | cons h1 t1 =>
        rw [splitLines_cons_ne hc hs] at h
        rcases List.mem_cons.mp h with rfl | h
        · intro hmem
          rcases List.mem_cons.mp hmem with hh | hh
          · exact hc hh.symm
          · exact ih (by rw [hs]; exact List.mem_cons_self _ _) hh
        · exact ih (by rw [hs]; exact List.mem_cons_of_mem _ h)

theorem mem_splitLines_of_mem {c : Char} {l : Text} (hmem : c ∈ l)
    (hc : c ≠ '\n') : ∃ line ∈ splitLines l, c ∈ line := by
  induction l with
  | nil => simp at hmem
  | cons d rest ih =>
    by_cases hd : d = '\n'
    · subst hd
      have h2 : c ∈ rest := by
        rcases List.mem_cons.mp hmem with rfl | h
        · exact absurd rfl hc
        · exact h
      obtain ⟨line, hl, hcl⟩ := ih h2
      exact ⟨line, by simp [splitLines, hl], hcl⟩
    · cases hs : splitLines rest with
      | nil => exact absurd hs (splitLines_ne_nil rest)
      | cons h1 t1 =>
        rw [splitLines_cons_ne hd hs]
        rcases List.mem_cons.mp hmem with rfl | h
        · exact ⟨c :: h1, List.mem_cons_self _ _, List.mem_cons_self _ _⟩
        · obtain ⟨line, hl, hcl⟩ := ih h
          rw [hs] at hl
          rcases List.mem_cons.mp hl with rfl | hl
          · exact ⟨d :: line, List.mem_cons_self _ _, List.mem_cons_of_mem _ hcl⟩
          · exact ⟨line, List.mem_cons_of_mem _ hl, hcl⟩

theorem splitLines_joinLines {ls : List Text} (hne : ls ≠ [])
    (hnl : ∀ l ∈ ls, '\n' ∉ l) : splitLines (joinLines ls) = ls := by
  induction ls with
  | nil => exact absurd rfl hne
  | cons l ls' ih =>
    cases ls' with
    | nil => exact splitLines_no_newline (hnl l (by simp))
    | cons l' ls'' =>
      have h1 : joinLines (l :: l' :: ls'') = l ++ '\n' :: joinLines (l' :: ls'') := rfl
      rw [h1, splitLines_append_newline, splitLines_no_newline (hnl l (by simp)),
        ih (by simp) (fun x hx => hnl x (List.mem_cons_of_mem _ hx))]
      rfl

-- ### Invariance of the non-blank stripped line list

theorem nonBlankStripped_concat_space {c : Char} (hc : isPySpace c = true)
    (x : Text) : nonBlankStripped (x ++ [c]) = nonBlankStripped x := by
  by_cases hnl : c = '\n'
  · subst hnl
    have h : splitLines (x ++ ['\n']) = splitLines x ++ [[]] := by
      have := splitLines_append_newline x []
      simpa [splitLines] using this
    simp [nonBlankStripped, h, strip, rstrip, lstrip]
  · obtain ⟨ys, y, h1, h2⟩ := splitLines_concat_ne hnl x
    simp [nonBlankStripped, h1, h2, strip_concat_space hc]

theorem nonBlankStripped_append_space_right (x w : Text)
    (hw : ∀ c ∈ w, isPySpace c = true) :
    nonBlankStripped (x ++ w) = nonBlankStripped x := by
  induction w using List.reverseRecOn with
  | nil => simp
  | append_singleton w' c ih =>
    rw [← List.append_assoc,
      nonBlankStripped_concat_space (hw c (by simp)) (x ++ w'),
      ih (fun d hd => hw d (by simp [hd]))]

theorem nonBlankStripped_cons_space {c : Char} (hc : isPySpace c = true)
    (x : Text) : nonBlankStripped (c :: x) = nonBlankStripped x := by
  by_cases hnl : c = '\n'
  · subst hnl
    simp [nonBlankStripped, splitLines, strip, rstrip, lstrip]
  · cases hs : splitLines x with
    | nil => exact absurd hs (splitLines_ne_nil x)
    | cons h1 t1 =>
      rw [nonBlankStripped, splitLines_cons_ne hnl hs]
      simp [nonBlankStripped, hs, strip_cons_space hc]

theorem nonBlankStripped_append_space_left (w x : Text)
    (hw : ∀ c ∈ w, isPySpace c = true) :
    nonBlankStripped (w ++ x) = nonBlankStripped x := by
  induction w with
  | nil => simp
  | cons c w' ih =>
    rw [List.cons_append, nonBlankStripped_cons_space (hw c (by simp)),
      ih (fun d hd => hw d (by simp [hd]))]

theorem nonBlankStripped_rstrip (l : Text) :
    nonBlankStripped (rstrip l) = nonBlankStripped l := by
  obtain ⟨w, hw, hws⟩ := rstrip_decomp l
  conv_rhs => rw [hw]
  rw [nonBlankStripped_append_space_right _ _ hws]

theorem nonBlankStripped_lstrip (l : Text) :
    nonBlankStripped (lstrip l) = nonBlankStripped l := by
  obtain ⟨w, hw, hws⟩ := lstrip_decomp l
  conv_rhs => rw [hw]
  rw [nonBlankStripped_append_space_left _ _ hws]

theorem nonBlankStripped_strip (l : Text) :
    nonBlankStripped (strip l) = nonBlankStripped l := by
  rw [strip, nonBlankStripped_lstrip, nonBlankStripped_rstrip]

theorem nonBlankStripped_ne_nil_of_mem {c : Char} {l : Text}
    (hc : isPySpace c = false) (hmem : c ∈ l) : nonBlankStripped l ≠ [] := by
  have hcn : c ≠ '\n' := by
    intro h; subst h; simp [isPySpace] at hc
  obtain ⟨line, hl, hcl⟩ := mem_splitLines_of_mem hmem hcn
  have h1 : strip line ∈ nonBlankStripped l := by
    rw [nonBlankStripped]
    refine List.mem_filter.mpr ⟨List.mem_map_of_mem _ hl, ?_⟩
    simp only [Bool.not_eq_true']
    rw [List.isEmpty_eq_false_iff_exists_mem]
    exact ⟨c, mem_strip hc hcl⟩
  exact List.ne_nil_of_mem h1

-- ### Expression-print transformer (codeexecutor/main.py, lines 41-179)

/-- Outcome of the cascading line-classification checks, one tag per
early-return branch of the source's classifiers. -/
inductive LineClass where
  | notSingleLine
  | blank
  | printCall
  | assignment
  | importStmt
  | definition
  | blockOpener
  | controlTransfer
  | expression
deriving DecidableEq

/-- The spaced comparison-operator test of `is_simple_expression`
(main.py line 61). -/
def spacedComparison (line : Text) : Bool :=
  containsSub (txt " == ") line || containsSub (txt " != ") line ||
    containsSub (txt " <= ") line || containsSub (txt " >= ") line

/-- Classification cascade of `is_simple_expression` applied to the single
stripped non-blank line (main.py lines 52-81). -/
def classify_simple_line (line : Text) : LineClass :=
  if containsSub (txt "print(") (lower line) = true then .printCall
  else if '=' ∈ line ∧ startsT (txt "=") (strip line) = false ∧
      spacedComparison line = false then .assignment
  else if startsT (txt "import ") line = true ∨ startsT (txt "from ") line = true then
    .importStmt
  else if startsT (txt "def ") line = true ∨ startsT (txt "class ") line = true then
    .definition
  else if (startsT (txt "if ") line || startsT (txt "for ") line ||
      startsT (txt "while ") line || startsT (txt "try:") line ||
      startsT (txt "except") line || startsT (txt "with ") line) = true then
    .blockOpener
  else if (startsT (txt "return") line || startsT (txt "yield") line ||
      startsT (txt "break") line || startsT (txt "continue") line ||
      startsT (txt "pass") line || startsT (txt "raise") line) = true then
    .controlTransfer
  else .expression

/-- The stripped non-blank lines computed by `is_simple_expression`
(main.py line 46). -/
def simpleLines (code : Text) : List Text := nonBlankStripped (strip code)

/-- `is_simple_expression`, with the early-return reason made explicit. -/
def classify_simple (code : Text) : LineClass :=
  match simpleLines code with
  | [line] => classify_simple_line line
  | _ => .notSingleLine

/-- `is_simple_expression` (main.py lines 41-81). -/
def is_simple_expression (code : Text) : Bool := classify_simple code == .expression

/-- The comparison-operator test of `is_expression_line` (main.py line 103). -/
def anyComparison (line : Text) : Bool :=
  containsSub (txt " == ") line || containsSub (txt " != ") line ||
    containsSub (txt " <= ") line || containsSub (txt " >= ") line ||
    containsSub (txt "==") line || containsSub (txt "!=") line ||
    containsSub (txt "<=") line || containsSub (txt ">=") line

/-- ASCII word character, the `\w` class of the source's regex. -/
def isWordChar (c : Char) : Bool := c.isAlphanum || c = '_'

/-- After a word character: zero or more whitespace characters, then `=`.
Together with `hasWordEq` this decides `re.search(r'\w+\s*=', line)`. -/
def eqAfterSpaces : Text → Bool
  | [] => false
  | c :: rest =>
    if c = '=' then true else if isPySpace c then eqAfterSpaces rest else false

/-- `re.search(r'\w+\s*=', line)` (main.py lines 110-111). -/
def hasWordEq : Text → Bool
  | [] => false
  | c :: rest => (isWordChar c && eqAfterSpaces rest) || hasWordEq rest

/-- `line.split('=')[0]`: the part of the line before its first `=`. -/
def beforeFirstEq : Text → Text
  | [] => []
  | c :: rest => if c = '=' then [] else c :: beforeFirstEq rest

/-- Classification cascade of `is_expression_line` (main.py lines 84-131). -/
def classify_expr_line (line0 : Text) : LineClass :=
  let line := strip line0
  if line.isEmpty = true then .blank
  else if containsSub (txt "print(") (lower line) = true then .printCall
  else if '=' ∈ line ∧ anyComparison line = false ∧ hasWordEq line = true ∧
      '(' ∉ beforeFirstEq line then .assignment
  else if startsT (txt "import ") line = true ∨ startsT (txt "from ") line = true then
    .importStmt
  else if startsT (txt "def ") line = true ∨ startsT (txt "class ") line = true then
    .definition
  else if (startsT (txt "if ") line || startsT (txt "for ") line ||
      startsT (txt "while ") line || startsT (txt "try:") line ||
      startsT (txt "except") line || startsT (txt "with ") line ||
      startsT (txt "else:") line || startsT (txt "elif ") line) = true then
    .blockOpener
  else if (startsT (txt "return") line || startsT (txt "yield") line ||
      startsT (txt "break") line || startsT (txt "continue") line ||
      startsT (txt "pass") line || startsT (txt "raise") line) = true then
    .controlTransfer
  else .expression

/-- `is_expression_line` (main.py lines 84-131). -/
def is_expression_line (line : Text) : Bool := classify_expr_line line == .expression

/-- `lines` as computed by `prepare_code_for_execution` (main.py line 139). -/
def prepLines (code : Text) : List Text := (splitLines (rstrip code)).map rstrip

/-- `non_empty_lines` of `prepare_code_for_execution` (main.py line 140). -/
def prepNonEmpty (code : Text) : List Text :=
  ((prepLines code).map strip).filter (fun l => !l.isEmpty)

/-- The backwards scan for the last non-blank line (main.py lines 153-157). -/
def lastNonEmptyIdx : List Text → Option Nat
  | [] => none
  | l :: ls =>
    match lastNonEmptyIdx ls with
    | some i => some (i + 1)
    | none => if (strip l).isEmpty then none else some 0

/-- The single-expression rewrite `f"_result = {code}\nprint(_result)"`
(main.py line 147). -/
def fastWrap (code : Text) : Text :=
  txt "_result = " ++ code ++ '\n' :: txt "print(_result)"

/-- The two-line wrapped replacement of the last non-blank line
(main.py line 172). -/
def wrapLines (indent : Nat) (line : Text) : Text :=
  List.replicate indent ' ' ++ txt "_result = " ++ line ++
    '\n' :: (List.replicate indent ' ' ++ txt "print(_result)")

/-- `prepare_code_for_execution` (main.py lines 134-179). -/
def prepare_code_for_execution (code : Text) : Text :=
  if (prepNonEmpty code).isEmpty then code
  else if is_simple_expression code then fastWrap code
  else
    let last_line_stripped := (prepNonEmpty code).getLastD []
    match lastNonEmptyIdx (prepLines code) with
    | none => code
    | some idx =>
      let original_last_line := (prepLines code).getD idx []
      if is_expression_line last_line_stripped then
        let indent := original_last_line.length - (lstrip original_last_line).length
        let code_before_last := joinLines ((prepLines code).take idx)
        if !(strip code_before_last).isEmpty then
          code_before_last ++ '\n' :: wrapLines indent last_line_stripped
        else wrapLines indent last_line_stripped
      else code

-- ### Sandboxed execution engine (main.py lines 13-16 and 182-243)

def MAX_EXECUTION_TIME : Nat := 10

def MAX_MEMORY_MB : Nat := 128

def MAX_OUTPUT_SIZE : Nat := 1024 * 1024

def truncationMarker : Text := txt "\n... (output truncated)"

def timeoutMessage : Text := txt "Execution timeout: Code exceeded maximum execution time"

/-- The `(output, error, execution_time)` triple returned by the engine. -/
structure Outcome where
  stdout : Text
  error : Option Text
  duration : ℚ
deriving DecidableEq

/-- Stdout normalisation on the normal-exit path (main.py lines 223-224):
`stdout.rstrip('\n') if stdout.endswith('\n') and len(stdout) > 1 else stdout`. -/
def normalize_stdout (s : Text) : Text :=
  if s.getLast? = some '\n' ∧ s.length > 1 then rstripNl s else s

/-- Output-size limiting (main.py lines 227-228). -/
def truncate_stdout (s : Text) : Text :=
  if s.isEmpty = false ∧ s.length > MAX_OUTPUT_SIZE then
    s.take MAX_OUTPUT_SIZE ++ truncationMarker
  else s

/-- How the child-process interaction inside the try block resolved.  The
source decides among these three branches through `subprocess.Popen` and
`process.communicate` (timeout raised, or stdout/stderr captured) and the
catch-all `except Exception` (main.py line 235), which catches every
exception raised inside the try block (lines 197-234), spawn and I/O
failures included; the engine's subsequent outcome computation is
deterministic in this resolution.  The region BEFORE the try block
(preparation and scratch-file persistence, lines 190-195) is not covered
by any handler and is modelled separately by `SetupEvent`. -/
inductive RunEvent where
  | timedOut (partialStdout partialStderr : Text)
  | completed (stdout stderr : Text)
  | spawnFailure (message : Text)

/-- The outcome computation of `execute_python_code` (main.py lines
212-237): the timeout handler, the normal-exit normalisation/truncation
and stderr propagation, and the catch-all failure handler.  `elapsed` is
the measured wall-clock duration of the corresponding path. -/
def execute_python_code (ev : RunEvent) (elapsed : ℚ) : Outcome :=
  match ev with
  | .timedOut _ _ => ⟨[], some timeoutMessage, elapsed⟩
  | .completed out err =>
    let stdout := truncate_stdout (normalize_stdout out)
    if err.isEmpty = false then ⟨stdout, some err, elapsed⟩
    else ⟨stdout, none, elapsed⟩
  | .spawnFailure msg => ⟨[], some (txt "Execution error: " ++ msg), elapsed⟩

/-- How the pre-try phase of one execution resolved (main.py lines
190-195, OUTSIDE the try/finally of lines 197-243): preparation followed
by `tempfile.NamedTemporaryFile(mode='w', delete=False)` and `f.write`.
`created` means the scratch file was created and the prepared source
written; `createFailed` means opening the temporary file itself raised
(no file exists); `writeFailed` means the file was created but writing
raised.  No handler covers this region in the source, so its exceptions
propagate to the engine's caller. -/
inductive SetupEvent where
  | created (tempFile : Nat)
  | createFailed (exn : Text)
  | writeFailed (tempFile : Nat) (exn : Text)

/-- What the engine's caller observes: either a returned
`(output, error, execution_time)` triple, or a propagated exception. -/
inductive EngineResult where
  | returned (outcome : Outcome)
  | raised (exn : Text)
deriving DecidableEq

def EngineResult.returnsOutcome : EngineResult → Bool
  | .returned _ => true
  | .raised _ => false

/-- `execute_python_code` as observed past the engine boundary (main.py
lines 182-243): a failure in the uncaught pre-try region propagates as a
raised exception, while every resolution of the try block is returned as
data through the outcome computation. -/
def execute_python_code_full (setup : SetupEvent) (ev : RunEvent)
    (elapsed : ℚ) : EngineResult :=
  match setup with
  | .created _ => .returned (execute_python_code ev elapsed)
  | .createFailed e => .raised e
  | .writeFailed _ e => .raised e

/-- Scratch-directory contents, for the file-lifecycle model. -/
structure ScratchState where
  files : List Nat
deriving DecidableEq

/-- `os.unlink`: fails (returns `none`) when the file does not exist. -/
def unlinkFile (f : Nat) (s : ScratchState) : Option ScratchState :=
  if f ∈ s.files then some ⟨s.files.erase f⟩ else none

/-- The guarded cleanup `try: os.unlink(temp_file) except: pass`
(main.py lines 240-243): a failing unlink leaves the state unchanged
instead of raising. -/
def tryUnlink (f : Nat) (s : ScratchState) : ScratchState :=
  (unlinkFile f s).getD s

/-- `execute_python_code` with the scratch-file lifecycle made explicit
(main.py lines 190-195 and 238-243).  The scratch file is created in the
pre-try region: if `NamedTemporaryFile` itself fails no file exists; if
`f.write` fails the file has already been created with `delete=False`
but the try/finally is never entered, so no cleanup runs and the file is
left behind.  Only when setup succeeds does execution enter the try
block, whose `finally` cleanup (`tryUnlink`) then runs on every path
(normal completion, timeout, and the caught exception path). -/
def execute_python_code_fs (setup : SetupEvent) (ev : RunEvent)
    (elapsed : ℚ) (s : ScratchState) : EngineResult × ScratchState :=
  match setup with
  | .createFailed e => (.raised e, s)
  | .writeFailed f e => (.raised e, ⟨f :: s.files⟩)
  | .created f =>
    (.returned (execute_python_code ev elapsed), tryUnlink f ⟨f :: s.files⟩)

-- ### Security gate (main.py lines 256-300)

/-- The denylist, in its declared order (main.py lines 269-284). -/
def dangerous_patterns : List Text :=
  [txt "__import__", txt "eval(", txt "exec(", txt "compile(", txt "open(",
    txt "file(", txt "input(", txt "raw_input(", txt "subprocess",
    txt "os.system", txt "os.popen", txt "import os", txt "import subprocess",
    txt "import sys"]

/-- The gate's scan loop (main.py lines 286-292): the first pattern of the
denylist occurring in the case-folded code, if any. -/
def scan (code : Text) : Option Text :=
  dangerous_patterns.find? (fun p => containsSub p (lower code))

structure ExecuteRequest where
  code : Text
  language : Text
  input_data : Option Text

def restrictedMessage (p : Text) : Text :=
  txt "Code contains restricted operations: " ++ p

def unsupportedMessage (lang : Text) : Text :=
  txt "Language '" ++ lang ++ txt "' is not supported yet. Only 'python' is supported."

/-- The `/execute` handler `execute_code` (main.py lines 256-300):
language check, then the denylist gate, and only then execution.  The
engine (preparation plus subprocess execution) is abstracted as a
function argument, so that theorems can quantify over it. -/
def execute_code (engine : Text → Option Text → Outcome)
    (req : ExecuteRequest) : Except Text Outcome :=
  if req.language ≠ txt "python" then .error (unsupportedMessage req.language)
  else
    match scan req.code with
    | some p => .error (restrictedMessage p)
    | none => .ok (engine req.code req.input_data)

example : prepare_code_for_execution (txt "x = 5") = txt "x = 5" := by decide

example : prepare_code_for_execution (txt "5 == 5") =
    txt "_result = 5 == 5\nprint(_result)" := by decide

example : prepare_code_for_execution (txt "print('hi')\n'done'") =
    txt "print('hi')\n_result = 'done'\nprint(_result)" := by decide

example : classify_simple (txt "5<=5") = .assignment := by decide

example : prepare_code_for_execution (txt "5<=5") =
    txt "_result = 5<=5\nprint(_result)" := by decide

example : prepare_code_for_execution (txt "5+1") =
    txt "_result = 5+1\nprint(_result)" := by decide

example : scan (txt "x = eval(input())") = some (txt "eval(") := by decide

-- ### Helper lemmas for the engine claims

theorem rstripNl_getLast (l : Text) : (rstripNl l).getLast? ≠ some '\n' := by
  induction l with
  | nil => simp [rstripNl]
  | cons c t ih =>
    by_cases hr : rstripNl t = []
    · by_cases hc : c = '\n'
      · simp [rstripNl, hr, hc]
      · simp [rstripNl, hr, hc]
    · have h1 : rstripNl (c :: t) = c :: rstripNl t := by
        simp only [rstripNl]
        rw [if_neg (by simpa using hr)]
      rw [h1]
      cases he : rstripNl t with
      | nil => exact absurd he hr
      | cons x xs =>
        rw [List.getLast?_cons_cons]
        rw [he] at ih
        exact ih

theorem rstripNl_decomp (l : Text) :
    ∃ w, l = rstripNl l ++ w ∧ ∀ c ∈ w, c = '\n' := by
  induction l with
  | nil => exact ⟨[], rfl, by simp⟩
  | cons c t ih =>
    obtain ⟨w, hw, hws⟩ := ih
    by_cases hr : rstripNl t = []
    · by_cases hc : c = '\n'
      · refine ⟨c :: t, ?_, ?_⟩
        · simp [rstripNl, hr, hc]
        · intro d hd
          rcases List.mem_cons.mp hd with rfl | hd
          · exact hc
          · rw [hw, hr] at hd; simpa using hws d hd
      · refine ⟨w, ?_, hws⟩
        simp only [rstripNl, hr]
        simp only [List.isEmpty_nil, if_true]
        rw [if_neg hc]
        rw [hw, hr]
        simp
    · refine ⟨w, ?_, hws⟩
      simp only [rstripNl]
      rw [if_neg (by simpa using hr)]
      rw [List.cons_append, ← hw]

theorem truncate_stdout_length (s : Text) :
    (truncate_stdout s).length ≤ MAX_OUTPUT_SIZE + truncationMarker.length := by
  rw [truncate_stdout]
  split
  · rename_i h
    rw [List.length_append, List.length_take]
    omega
  · rename_i h
    rw [Classical.not_and_iff_or_not_not] at h
    rcases h with h | h
    · have : s.isEmpty = true := by simpa using h
      rw [List.isEmpty_iff] at this
      subst this
      simp
    · omega

/-- C3 counterexample: on captured stdout `"a\n\n"` the engine removes BOTH
trailing newlines (Python `rstrip('\n')` removes every trailing newline),
not exactly one as the claim states. -/
theorem c3_counterexample :
    normalize_stdout (txt "a\n\n") = txt "a" ∧
      normalize_stdout (txt "a\n\n") ≠ txt "a\n" := by
  constructor
  · decide
  · decide

/-- C3 (amended): on the normal-exit path ALL trailing newlines are removed
from captured stdout when it ends with a newline and its length exceeds 1
(so the result is a prefix of the captured stdout and, for inputs longer
than one character, never ends in a newline — in particular an all-newline
stdout longer than one character collapses to the empty string), while a
stdout consisting of a single newline character is returned as-is. -/
theorem c3_trailing_newline_trim (s : Text) :
    (∃ w, s = normalize_stdout s ++ w ∧ ∀ c ∈ w, c = '\n') ∧
      (s.length > 1 → (normalize_stdout s).getLast? ≠ some '\n') ∧
      (s.getLast? = some '\n' ∧ s.length > 1 → normalize_stdout s = rstripNl s) ∧
      (¬(s.getLast? = some '\n' ∧ s.length > 1) → normalize_stdout s = s) := by
  refine ⟨?_, ?_, ?_, ?_⟩
  · rw [normalize_stdout]
    split
    · exact rstripNl_decomp s
    · exact ⟨[], by simp⟩
  · intro hlen
    rw [normalize_stdout]
    split
    · exact rstripNl_getLast s
    · rename_i h
      rw [Classical.not_and_iff_or_not_not] at h
      rcases h with h | h
      · exact h
      · omega
  · intro h
    rw [normalize_stdout, if_pos h]
  · intro h
    rw [normalize_stdout, if_neg h]

theorem c3_trailing_newline_trim_witness :
    ((txt "ab\n").getLast? = some '\n' ∧ (txt "ab\n").length > 1) ∧
      normalize_stdout (txt "ab\n") = rstripNl (txt "ab\n") ∧
      ¬((txt "\n").getLast? = some '\n' ∧ (txt "\n").length > 1) ∧
      normalize_stdout (txt "\n") = txt "\n" := by
  refine ⟨by decide, ?_, by decide, ?_⟩
  · exact (c3_trailing_newline_trim (txt "ab\n")).2.2.1 (by decide)
  · exact (c3_trailing_newline_trim (txt "\n")).2.2.2 (by decide)

/-- C5: the stdout of every execution outcome is bounded by
`MAX_OUTPUT_SIZE` plus the truncation marker's length, and whenever the
normalised captured stdout exceeds `MAX_OUTPUT_SIZE` the returned stdout
is exactly its first `MAX_OUTPUT_SIZE` characters followed by the fixed
truncation marker. -/
theorem c5_output_bound :
    (∀ (ev : RunEvent) (t : ℚ),
      (execute_python_code ev t).stdout.length ≤
        MAX_OUTPUT_SIZE + truncationMarker.length) ∧
      (∀ (out err : Text) (t : ℚ),
        (normalize_stdout out).length > MAX_OUTPUT_SIZE →
        (execute_python_code (.completed out err) t).stdout =
          (normalize_stdout out).take MAX_OUTPUT_SIZE ++ truncationMarker) := by
  constructor
  · intro ev t
    cases ev with
    | timedOut po pe => simp [execute_python_code]
    | spawnFailure msg => simp [execute_python_code]
    | completed out err =>
      have h := truncate_stdout_length (normalize_stdout out)
      rw [execute_python_code]
      split
      · exact h
      · exact h
  · intro out err t hlen
    have hne : (normalize_stdout out).isEmpty = false := by
      rw [List.isEmpty_eq_false_iff_exists_mem]
      rcases he : normalize_stdout out with _ | ⟨x, xs⟩
      · rw [he] at hlen; simp [MAX_OUTPUT_SIZE] at hlen
      · exact ⟨x, by simp⟩
    have htr : truncate_stdout (normalize_stdout out) =
        (normalize_stdout out).take MAX_OUTPUT_SIZE ++ truncationMarker := by
      rw [truncate_stdout, if_pos ⟨hne, hlen⟩]
    rw [execute_python_code]
    split
    · exact htr
    · exact htr

theorem c5_output_bound_witness :
    (normalize_stdout (List.replicate (MAX_OUTPUT_SIZE + 1) 'a')).length >
        MAX_OUTPUT_SIZE ∧
      (execute_python_code
          (.completed (List.replicate (MAX_OUTPUT_SIZE + 1) 'a') []) 0).stdout =
        (normalize_stdout (List.replicate (MAX_OUTPUT_SIZE + 1) 'a')).take
            MAX_OUTPUT_SIZE ++ truncationMarker := by
  have hnorm : normalize_stdout (List.replicate (MAX_OUTPUT_SIZE + 1) 'a') =
      List.replicate (MAX_OUTPUT_SIZE + 1) 'a' := by
    rw [normalize_stdout, if_neg]
    intro h
    have h1 := h.1
    rw [List.replicate_succ'] at h1
    rw [List.getLast?_concat] at h1
    simp at h1
  have hlen : (normalize_stdout (List.replicate (MAX_OUTPUT_SIZE + 1) 'a')).length >
      MAX_OUTPUT_SIZE := by
    rw [hnorm, List.length_replicate]
    omega
  exact ⟨hlen, c5_output_bound.2 _ [] 0 hlen⟩

/-- C7: on the wall-clock-timeout path the engine returns empty stdout, the
fixed timeout message, and the elapsed duration; the result does not
depend on anything the child wrote before being killed, so partial stderr
(and stdout) content is discarded. -/
theorem c7_timeout_outcome (partialStdout partialStderr : Text) (t : ℚ) :
    execute_python_code (.timedOut partialStdout partialStderr) t =
      ⟨[], some timeoutMessage, t⟩ := rfl

/-- C8 counterexample: an I/O failure while persisting the prepared
source to the scratch file happens before the try block (main.py lines
193-195), so it propagates past the engine boundary as a raised
exception instead of being returned as an outcome. -/
theorem c8_counterexample :
    execute_python_code_full (.writeFailed 0 (txt "disk full"))
        (.completed [] []) 0 = .raised (txt "disk full") ∧
      EngineResult.returnsOutcome
        (execute_python_code_full (.writeFailed 0 (txt "disk full"))
          (.completed [] []) 0) = false := by
  constructor
  · rfl
  · rfl

/-- C8 (amended): every failure raised inside the try block — spawn
failure and I/O failure during the child interaction — is caught by the
catch-all handler and returned as data: an outcome with empty stdout, an
error message derived from the failure, and the elapsed duration, and
with successful setup the engine never raises; but a failure while
persisting the prepared source to the scratch file occurs before the try
block and propagates past the engine boundary. -/
theorem c8_failure_outcome :
    (∀ (f : Nat) (msg : Text) (t : ℚ),
      execute_python_code_full (.created f) (.spawnFailure msg) t =
        .returned ⟨[], some (txt "Execution error: " ++ msg), t⟩) ∧
      (∀ (f : Nat) (ev : RunEvent) (t : ℚ),
        EngineResult.returnsOutcome
          (execute_python_code_full (.created f) ev t) = true) ∧
      (∀ (ev : RunEvent) (t : ℚ), (execute_python_code ev t).duration = t) := by
  refine ⟨?_, ?_, ?_⟩
  · intro f msg t
    rfl
  · intro f ev t
    rfl
  · intro ev t
    cases ev with
    | timedOut po pe => rfl
    | spawnFailure msg => rfl
    | completed out err =>
      rw [execute_python_code]
      split
      · rfl
      · rfl

/-- C9 counterexample: when writing the prepared source fails (main.py
line 194), the scratch file created by `NamedTemporaryFile(delete=False)`
is left behind — the finally cleanup belongs to a try block that was
never entered — so a state exists after completion that retains the
scratch file. -/
theorem c9_counterexample :
    (execute_python_code_fs (.writeFailed 7 (txt "disk full"))
        (.completed [] []) 0 ⟨[]⟩).2.files = [7] ∧
      7 ∈ (execute_python_code_fs (.writeFailed 7 (txt "disk full"))
        (.completed [] []) 0 ⟨[]⟩).2.files := by
  constructor
  · rfl
  · rw [(rfl : (execute_python_code_fs (.writeFailed 7 (txt "disk full"))
      (.completed [] []) 0 ⟨[]⟩).2.files = [7])]
    exact List.mem_singleton.mpr rfl

/-- C9 (amended): for a fresh scratch-file name, once setup succeeds and
execution reaches the try block, the scratch file is absent again after
every exit path of the block (normal completion, timeout, and the caught
exception path), the guarded cleanup itself never fails (`tryUnlink` is
total) and restores exactly the initial state, and a failed file
creation leaves the state untouched; but when writing the prepared
source fails after creation — before the try block — the created
scratch file is leaked. -/
theorem c9_scratch_cleanup (ev : RunEvent) (t : ℚ) (f : Nat) (s : ScratchState)
    (hfresh : f ∉ s.files) :
    (execute_python_code_fs (.created f) ev t s).2.files = s.files ∧
      f ∉ (execute_python_code_fs (.created f) ev t s).2.files ∧
      ∀ msg : Text, (execute_python_code_fs (.createFailed msg) ev t s).2 = s := by
  have h : (execute_python_code_fs (.created f) ev t s).2 =
      tryUnlink f ⟨f :: s.files⟩ := rfl
  have h2 : tryUnlink f ⟨f :: s.files⟩ = ⟨s.files⟩ := by
    rw [tryUnlink, unlinkFile, if_pos (List.mem_cons_self f s.files)]
    rw [Option.getD_some]
    rw [List.erase_cons_head]
  rw [h, h2]
  exact ⟨rfl, hfresh, fun msg => rfl⟩

theorem c9_scratch_cleanup_witness :
    (7 : Nat) ∉ (⟨[3]⟩ : ScratchState).files ∧
      ((execute_python_code_fs (.created 7) (.timedOut [] (txt "oops"))
          1 ⟨[3]⟩).2.files = [3] ∧
        7 ∉ (execute_python_code_fs (.created 7) (.timedOut [] (txt "oops"))
          1 ⟨[3]⟩).2.files ∧
        ∀ msg : Text, (execute_python_code_fs (.createFailed msg)
          (.timedOut [] (txt "oops")) 1 ⟨[3]⟩).2 = ⟨[3]⟩) := by
  refine ⟨by decide, ?_⟩
  exact c9_scratch_cleanup (.timedOut [] (txt "oops")) 1 7 ⟨[3]⟩ (by decide)

-- ### Helper lemmas for the gate and the fast path

theorem find?_first_match {α : Type} (p : α → Bool) (l : List α) (a : α)
    (h : l.find? p = some a) :
    p a = true ∧ ∃ pre post, l = pre ++ a :: post ∧ ∀ b ∈ pre, p b = false := by
  induction l with
  | nil => simp [List.find?] at h
  | cons x xs ih =>
    by_cases hx : p x = true
    · rw [List.find?_cons_of_pos _ hx] at h
      obtain rfl := Option.some.inj h
      exact ⟨hx, [], xs, rfl, by simp⟩
    · rw [List.find?_cons_of_neg _ (by simpa using hx)] at h
      obtain ⟨hpa, pre, post, heq, hpre⟩ := ih h
      refine ⟨hpa, x :: pre, post, by rw [heq]; rfl, ?_⟩
      intro b hb
      rcases List.mem_cons.mp hb with rfl | hb
      · simpa using hx
      · exact hpre b hb

theorem prepNonEmpty_eq (code : Text) :
    prepNonEmpty code = nonBlankStripped code := by
  rw [prepNonEmpty, prepLines, List.map_map]
  have hfun : strip ∘ rstrip = strip := by
    funext l
    exact strip_rstrip l
  rw [hfun, ← nonBlankStripped, nonBlankStripped_rstrip]

theorem simpleLines_eq (code : Text) :
    simpleLines code = nonBlankStripped code := nonBlankStripped_strip code

/-- C4: every code containing at least one denylisted pattern is rejected
by the gate — the scan necessarily returns some pattern, and whatever it
returns is exactly the first pattern of the denylist (in its declared
order) that occurs in the case-folded code; on rejection the handler's
error message names that pattern and the result is independent of the
execution engine, so the code is never prepared or executed; when no
pattern occurs, the gate passes the code to the engine. -/
theorem c4_denylist_gate :
    (∀ (code q : Text), q ∈ dangerous_patterns →
      containsSub q (lower code) = true → ∃ p, scan code = some p) ∧
      (∀ (code p : Text), scan code = some p →
        containsSub p (lower code) = true ∧
          ∃ pre post, dangerous_patterns = pre ++ p :: post ∧
            ∀ q ∈ pre, containsSub q (lower code) = false) ∧
      (∀ code : Text,
        (∀ q ∈ dangerous_patterns, containsSub q (lower code) = false) →
        scan code = none) ∧
      (∀ (engine engine' : Text → Option Text → Outcome) (code : Text)
          (inp : Option Text) (p : Text), scan code = some p →
        execute_code engine ⟨code, txt "python", inp⟩ =
            .error (restrictedMessage p) ∧
          execute_code engine ⟨code, txt "python", inp⟩ =
            execute_code engine' ⟨code, txt "python", inp⟩) ∧
      (∀ (engine : Text → Option Text → Outcome) (code : Text)
          (inp : Option Text), scan code = none →
        execute_code engine ⟨code, txt "python", inp⟩ =
          .ok (engine code inp)) := by
  refine ⟨?_, ?_, ?_, ?_, ?_⟩
  · intro code q hq hcontains
    cases h : scan code with
    | some p => exact ⟨p, rfl⟩
    | none =>
      rw [scan, List.find?_eq_none] at h
      exact absurd hcontains (by simpa using h q hq)
  · intro code p h
    exact find?_first_match _ _ _ h
  · intro code h
    rw [scan, List.find?_eq_none]
    intro q hq
    simp [h q hq]
  · intro engine engine' code inp p h
    constructor
    · rw [execute_code, if_neg (by simp), h]
    · rw [execute_code, execute_code, if_neg (by simp), if_neg (by simp), h]
  · intro engine code inp h
    rw [execute_code, if_neg (by simp), h]

theorem c4_denylist_gate_witness :
    (txt "input(" ∈ dangerous_patterns ∧
      containsSub (txt "input(") (lower (txt "x = eval(input())")) = true ∧
      ∃ p, scan (txt "x = eval(input())") = some p) ∧
      scan (txt "x = eval(input())") = some (txt "eval(") ∧
      execute_code (fun _ _ => ⟨[], none, 0⟩)
          ⟨txt "x = eval(input())", txt "python", none⟩ =
        .error (restrictedMessage (txt "eval(")) ∧
      scan (txt "1 + 2") = none ∧
      execute_code (fun _ _ => ⟨[], none, 0⟩)
          ⟨txt "1 + 2", txt "python", none⟩ =
        .ok ⟨[], none, 0⟩ := by
  refine ⟨⟨by decide, by decide, ?_⟩, by decide, ?_, by decide, ?_⟩
  · exact c4_denylist_gate.1 (txt "x = eval(input())") (txt "input(")
      (by decide) (by decide)
  · exact (c4_denylist_gate.2.2.2.1 (fun _ _ => ⟨[], none, 0⟩)
      (fun _ _ => ⟨[], none, 0⟩) (txt "x = eval(input())") none (txt "eval(")
      (by decide)).1
  · exact c4_denylist_gate.2.2.2.2 (fun _ _ => ⟨[], none, 0⟩)
      (txt "1 + 2") none (by decide)

/-- C6: every input whose single non-blank line the fast-path classifier
accepts as a simple expression (no assignment, print call, import,
definition, block opener, or control-transfer keyword) is rewritten by
`prepare_code_for_execution` into an assignment of the whole line to the
temporary `_result` followed by a print of that temporary. -/
theorem c6_fast_path (code : Text) (hline : '\n' ∉ code)
    (hsimple : is_simple_expression code = true) :
    prepare_code_for_execution code = fastWrap code := by
  have hne : prepNonEmpty code ≠ [] := by
    rw [prepNonEmpty_eq]
    intro h
    rw [is_simple_expression, classify_simple, simpleLines,
      nonBlankStripped_strip, h] at hsimple
    simp at hsimple
  rw [prepare_code_for_execution, if_neg (by simpa using hne), if_pos hsimple]

theorem c6_fast_path_witness :
    '\n' ∉ txt "5+1" ∧ is_simple_expression (txt "5+1") = true ∧
      prepare_code_for_execution (txt "5+1") = fastWrap (txt "5+1") := by
  exact ⟨by decide, by decide, c6_fast_path (txt "5+1") (by decide) (by decide)⟩

-- ### Helper lemmas for the classifier tie-break claim

theorem getLast?_some_decomp {l : Text} {c : Char} (h : l.getLast? = some c) :
    ∃ l', l = l' ++ [c] := by
  induction l with
  | nil => simp at h
  | cons x xs ih =>
    cases xs with
    | nil =>
      simp only [List.getLast?_singleton, Option.some.injEq] at h
      exact ⟨[], by simp [h]⟩
    | cons y ys =>
      rw [List.getLast?_cons_cons] at h
      obtain ⟨l', hl'⟩ := ih h
      exact ⟨x :: l', by rw [hl']; rfl⟩

theorem rstrip_append_right {b : Text} (hb : rstrip b ≠ []) (x : Text) :
    rstrip (x ++ b) = x ++ rstrip b := by
  induction x with
  | nil => rfl
  | cons c x' ih =>
    show rstrip (c :: (x' ++ b)) = c :: (x' ++ rstrip b)
    simp only [rstrip, ih]
    rw [if_neg (by simp [hb])]

theorem rstrip_append_space_w {w : Text} (hw : ∀ c ∈ w, isPySpace c = true)
    (x : Text) : rstrip (x ++ w) = rstrip x := by
  induction w using List.reverseRecOn with
  | nil => simp
  | append_singleton w' c ih =>
    rw [← List.append_assoc, rstrip_concat_space (hw c (by simp)) (x ++ w'),
      ih (fun d hd => hw d (by simp [hd]))]

theorem containsSub_lstrip {p l : Text} (c : Char) (hc : p.head? = some c)
    (hcs : isPySpace c = false) (h : containsSub p l = true) :
    containsSub p (lstrip l) = true := by
  obtain ⟨a, b, rfl⟩ := (containsSub_iff p l).mp h
  induction a with
  | nil =>
    cases p with
    | nil => simp at hc
    | cons x xs =>
      obtain rfl : x = c := by simpa using hc
      simp only [List.nil_append, List.cons_append, lstrip]
      rw [List.dropWhile_cons_of_neg (by simp [hcs])]
      exact (containsSub_iff _ _).mpr ⟨[], b, by simp⟩
  | cons d a' ih =>
    have ih' := ih ((containsSub_iff _ _).mpr ⟨a', b, rfl⟩)
    by_cases hd : isPySpace d = true
    · show containsSub p (List.dropWhile isPySpace (d :: (a' ++ p ++ b))) = true
      rw [List.dropWhile_cons_of_pos hd]
      exact ih'
    · show containsSub p (List.dropWhile isPySpace (d :: (a' ++ p ++ b))) = true
      rw [List.dropWhile_cons_of_neg (by simpa using hd)]
      exact (containsSub_iff _ _).mpr ⟨d :: a', b, by simp⟩

theorem containsSub_rstrip {p l : Text} (c : Char) (hc : p.getLast? = some c)
    (hcs : isPySpace c = false) (h : containsSub p l = true) :
    containsSub p (rstrip l) = true := by
  obtain ⟨a, b, rfl⟩ := (containsSub_iff p l).mp h
  by_cases hb : rstrip b = []
  · obtain ⟨w, hw, hws⟩ := rstrip_decomp b
    rw [hb, List.nil_append] at hw
    subst hw
    rw [rstrip_append_space_w hws]
    obtain ⟨p', rfl⟩ := getLast?_some_decomp hc
    rw [← List.append_assoc, rstrip_concat_nonspace hcs]
    exact (containsSub_iff _ _).mpr ⟨a, [], by simp⟩
  · rw [rstrip_append_right hb]
    exact (containsSub_iff _ _).mpr ⟨a, rstrip b, rfl⟩

theorem containsSub_strip {p l : Text} (c d : Char) (hc : p.head? = some c)
    (hcs : isPySpace c = false) (hd : p.getLast? = some d)
    (hds : isPySpace d = false) (h : containsSub p l = true) :
    containsSub p (strip l) = true :=
  containsSub_lstrip c hc hcs (containsSub_rstrip d hd hds h)

/-- C1 counterexample: the single-line fast-path classifier only lets the
SPACED comparison forms override the assignment heuristic, so the line
`5<=5`, which contains the comparison operator `<=` (unspaced), is
classified as an assignment by `is_simple_expression`'s cascade. -/
theorem c1_counterexample :
    containsSub (txt "<=") (txt "5<=5") = true ∧
      classify_simple (txt "5<=5") = .assignment := by
  constructor
  · decide
  · decide

/-- C1 (amended): on the multi-line last-line path the classifier never
classifies a line containing `==`, `!=`, `<=` or `>=` as an assignment;
on the single-line fast path this holds only for the spaced forms
` == `, ` != `, ` <= `, ` >= ` (an unspaced comparison there falls into
the assignment branch, but such a single line is still rewritten by
`prepare_code_for_execution` through the multi-line path); and
`prepare` leaves `x = 5` unchanged while rewriting `5 == 5`. -/
theorem c1_comparison_tiebreak :
    (∀ line : Text,
      (containsSub (txt "==") line = true ∨ containsSub (txt "!=") line = true ∨
        containsSub (txt "<=") line = true ∨ containsSub (txt ">=") line = true) →
      classify_expr_line line ≠ .assignment) ∧
      (∀ line : Text,
        (containsSub (txt " == ") line = true ∨
          containsSub (txt " != ") line = true ∨
          containsSub (txt " <= ") line = true ∨
          containsSub (txt " >= ") line = true) →
        classify_simple_line line ≠ .assignment) ∧
      prepare_code_for_execution (txt "x = 5") = txt "x = 5" ∧
      prepare_code_for_execution (txt "5 == 5") =
        txt "_result = 5 == 5\nprint(_result)" ∧
      prepare_code_for_execution (txt "5<=5") =
        txt "_result = 5<=5\nprint(_result)" := by
  refine ⟨?_, ?_, by decide, by decide, by decide⟩
  · intro line h
    have hcmp : anyComparison (strip line) = true := by
      rcases h with h | h | h | h
      · have := containsSub_strip '=' '=' (by decide) (by decide) (by decide)
          (by decide) h
        simp [anyComparison, this]
      · have := containsSub_strip '!' '=' (by decide) (by decide) (by decide)
          (by decide) h
        simp [anyComparison, this]
      · have := containsSub_strip '<' '=' (by decide) (by decide) (by decide)
          (by decide) h
        simp [anyComparison, this]
      · have := containsSub_strip '>' '=' (by decide) (by decide) (by decide)
          (by decide) h
        simp [anyComparison, this]
    intro heq
    simp only [classify_expr_line] at heq
    split_ifs at heq with h1 h2 h3
    exact absurd h3.2.1 (by simp [hcmp])
  · intro line h
    have hcmp : spacedComparison line = true := by
      rcases h with h | h | h | h
      · simp [spacedComparison, h]
      · simp [spacedComparison, h]
      · simp [spacedComparison, h]
      · simp [spacedComparison, h]
    intro heq
    simp only [classify_simple_line] at heq
    split_ifs at heq with h1 h2
    exact absurd h2.2.2 (by simp [hcmp])

theorem c1_comparison_tiebreak_witness :
    containsSub (txt "==") (txt "a==b") = true ∧
      classify_expr_line (txt "a==b") ≠ .assignment ∧
      containsSub (txt " == ") (txt "5 == 5") = true ∧
      classify_simple_line (txt "5 == 5") ≠ .assignment := by
  refine ⟨by decide, ?_, by decide, ?_⟩
  · exact c1_comparison_tiebreak.1 (txt "a==b") (Or.inl (by decide))
  · exact c1_comparison_tiebreak.2.1 (txt "5 == 5") (Or.inl (by decide))

-- ### Helper lemmas for the rewrite fix-point and frame claims

theorem mem_of_mem_rstrip {c : Char} {l : Text} (h : c ∈ rstrip l) : c ∈ l := by
  obtain ⟨w, hw, _⟩ := rstrip_decomp l
  rw [hw]
  exact List.mem_append_left _ h

theorem mem_of_mem_strip {c : Char} {l : Text} (h : c ∈ strip l) : c ∈ l := by
  rw [strip] at h
  obtain ⟨w, hw, _⟩ := lstrip_decomp (rstrip l)
  apply mem_of_mem_rstrip
  rw [hw]
  exact List.mem_append_right _ h

theorem mem_prepNonEmpty_no_nl {code l : Text} (h : l ∈ prepNonEmpty code) :
    '\n' ∉ l := by
  rw [prepNonEmpty_eq, nonBlankStripped] at h
  obtain ⟨p, hp, rfl⟩ := List.mem_map.mp (List.mem_filter.mp h).1
  intro hin
  exact mem_splitLines_no_nl hp (mem_of_mem_strip hin)

theorem getLastD_mem {α : Type} (l : List α) (d : α) (h : l ≠ []) :
    l.getLastD d ∈ l := by
  rcases List.eq_nil_or_concat l with rfl | ⟨L, b, hL⟩
  · exact absurd rfl h
  · rw [hL, List.concat_eq_append, List.getLastD_concat]
    simp

theorem lastNonEmptyIdx_concat (ls : List Text) (b : Text)
    (hb : (strip b).isEmpty = false) :
    lastNonEmptyIdx (ls ++ [b]) = some ls.length := by
  induction ls with
  | nil =>
    show lastNonEmptyIdx [b] = some 0
    rw [lastNonEmptyIdx, lastNonEmptyIdx]
    simp [hb]
  | cons l ls' ih =>
    show lastNonEmptyIdx (l :: (ls' ++ [b])) = some (ls'.length + 1)
    rw [lastNonEmptyIdx, ih]

theorem classify_simple_of_two {code : Text}
    (h : 2 ≤ (simpleLines code).length) :
    classify_simple code = .notSingleLine := by
  rw [classify_simple]
  generalize simpleLines code = ls at h ⊢
  rcases ls with _ | ⟨x, _ | ⟨y, rest⟩⟩
  · simp at h
  · simp at h
  · rfl

theorem fastWrap_concat (code : Text) :
    fastWrap code =
      (txt "_result = " ++ code ++ '\n' :: txt "print(_result") ++ [')'] := by
  rw [fastWrap,
    (by decide : txt "print(_result)" = txt "print(_result" ++ [')'])]
  simp

theorem splitLines_fastWrap (code : Text) :
    splitLines (fastWrap code) =
      splitLines (txt "_result = " ++ code) ++ [txt "print(_result)"] := by
  have h1 : fastWrap code =
      (txt "_result = " ++ code) ++ '\n' :: txt "print(_result)" := by
    rw [fastWrap]
  rw [h1, splitLines_append_newline,
    splitLines_no_newline (by decide : '\n' ∉ txt "print(_result)")]

/-- A rewritten single-expression source is a fixed point of the
transformer: its last line is the print of the temporary, which the
classifier excludes, so a second `prepare` pass returns it unchanged. -/
theorem prepare_fastWrap_fix (code : Text) :
    prepare_code_for_execution (fastWrap code) = fastWrap code := by
  have hrX : rstrip (fastWrap code) = fastWrap code := by
    rw [fastWrap_concat]
    exact rstrip_concat_nonspace (by decide) _
  have hprep : prepLines (fastWrap code) =
      (splitLines (txt "_result = " ++ code)).map rstrip ++
        [txt "print(_result)"] := by
    rw [prepLines, hrX, splitLines_fastWrap, List.map_append]
    have h2 : List.map rstrip [txt "print(_result)"] = [txt "print(_result)"] := by
      decide
    rw [h2]
  have hNB : nonBlankStripped (fastWrap code) =
      nonBlankStripped (txt "_result = " ++ code) ++ [txt "print(_result)"] := by
    have h2 : List.filter (fun x => !List.isEmpty x)
        (List.map strip [txt "print(_result)"]) = [txt "print(_result)"] := by
      decide
    rw [nonBlankStripped, splitLines_fastWrap, List.map_append,
      List.filter_append, h2]
    rfl
  have hA : nonBlankStripped (txt "_result = " ++ code) ≠ [] :=
    nonBlankStripped_ne_nil_of_mem (by decide)
      (List.mem_append_left code (by decide : '_' ∈ txt "_result = "))
  have hpe : (prepNonEmpty (fastWrap code)).isEmpty = false := by
    rw [prepNonEmpty_eq, hNB]
    simp
  have hsimp2 : is_simple_expression (fastWrap code) = false := by
    rw [is_simple_expression, classify_simple_of_two]
    · rfl
    · rw [simpleLines_eq, hNB, List.length_append]
      have := List.length_pos.mpr hA
      simp
      omega
  have hlast : (prepNonEmpty (fastWrap code)).getLastD [] =
      txt "print(_result)" := by
    rw [prepNonEmpty_eq, hNB, List.getLastD_concat]
  have hidx : lastNonEmptyIdx (prepLines (fastWrap code)) =
      some ((splitLines (txt "_result = " ++ code)).map rstrip).length := by
    rw [hprep]
    exact lastNonEmptyIdx_concat _ _ (by decide)
  have hexp : is_expression_line (txt "print(_result)") = false := by decide
  rw [prepare_code_for_execution]
  rw [if_neg (by rw [hpe]; exact Bool.false_ne_true)]
  rw [if_neg (by rw [hsimp2]; exact Bool.false_ne_true)]
  rw [hlast, hidx]
  simp [hexp]

theorem no_nl_w1 (n : Nat) (last' : Text) (hnl : '\n' ∉ last') :
    '\n' ∉ List.replicate n ' ' ++ txt "_result = " ++ last' := by
  intro h
  rcases List.mem_append.mp h with h | h
  · rcases List.mem_append.mp h with h | h
    · exact absurd (List.mem_replicate.mp h).2 (by decide)
    · exact absurd h (by decide)
  · exact hnl h

theorem no_nl_w2 (n : Nat) :
    '\n' ∉ List.replicate n ' ' ++ txt "print(_result)" := by
  intro h
  rcases List.mem_append.mp h with h | h
  · exact absurd (List.mem_replicate.mp h).2 (by decide)
  · exact absurd h (by decide)

theorem wrapLines_eq (n : Nat) (last' : Text) :
    wrapLines n last' =
      (List.replicate n ' ' ++ txt "_result = " ++ last') ++
        '\n' :: (List.replicate n ' ' ++ txt "print(_result)") := by
  rw [wrapLines]

theorem splitLines_wrapLines (n : Nat) (last' : Text) (hnl : '\n' ∉ last') :
    splitLines (wrapLines n last') =
      [List.replicate n ' ' ++ txt "_result = " ++ last',
        List.replicate n ' ' ++ txt "print(_result)"] := by
  rw [wrapLines_eq, splitLines_append_newline,
    splitLines_no_newline (no_nl_w1 n last' hnl),
    splitLines_no_newline (no_nl_w2 n)]
  rfl

theorem wrapLines_concat (n : Nat) (last' : Text) :
    wrapLines n last' =
      (List.replicate n ' ' ++ txt "_result = " ++ last' ++
        '\n' :: (List.replicate n ' ' ++ txt "print(_result")) ++ [')'] := by
  rw [wrapLines,
    (by decide : txt "print(_result)" = txt "print(_result" ++ [')'])]
  simp

theorem rstrip_wrapLines (n : Nat) (last' : Text) :
    rstrip (wrapLines n last') = wrapLines n last' := by
  rw [wrapLines_concat]
  exact rstrip_concat_nonspace (by decide) _

theorem rstrip_w2 (n : Nat) :
    rstrip (List.replicate n ' ' ++ txt "print(_result)") =
      List.replicate n ' ' ++ txt "print(_result)" := by
  have h : List.replicate n ' ' ++ txt "print(_result)" =
      (List.replicate n ' ' ++ txt "print(_result") ++ [')'] := by
    rw [(by decide : txt "print(_result)" = txt "print(_result" ++ [')'])]
    simp
  rw [h]
  exact rstrip_concat_nonspace (by decide) _

theorem strip_w2 (n : Nat) :
    strip (List.replicate n ' ' ++ txt "print(_result)") =
      txt "print(_result)" := by
  rw [strip_append_space_left _ _
    (fun c hc => by rw [(List.mem_replicate.mp hc).2]; rfl)]
  decide

theorem strip_w1_ne (n : Nat) (last' : Text) :
    strip (List.replicate n ' ' ++ txt "_result = " ++ last') ≠ [] := by
  apply strip_ne_nil_of_mem (c := '_') (by decide)
  exact List.mem_append_left last'
    (List.mem_append_right _ (by decide : '_' ∈ txt "_result = "))

theorem nonBlankStripped_wrapLines (n : Nat) (last' : Text) (hnl : '\n' ∉ last') :
    nonBlankStripped (wrapLines n last') =
      [strip (List.replicate n ' ' ++ txt "_result = " ++ last'),
        txt "print(_result)"] := by
  rw [nonBlankStripped, splitLines_wrapLines n last' hnl]
  have h1 := strip_w1_ne n last'
  have h2 := strip_w2 n
  simp only [List.map_cons, List.map_nil, List.filter_cons, h2]
  rw [if_pos (by simpa using h1), if_pos (by decide)]
  rfl

theorem prepare_blank (code : Text) (h : (prepNonEmpty code).isEmpty = true) :
    prepare_code_for_execution code = code := by
  rw [prepare_code_for_execution, if_pos h]

theorem prepare_idx_none (code : Text)
    (h1 : (prepNonEmpty code).isEmpty = false)
    (h2 : is_simple_expression code = false)
    (h3 : lastNonEmptyIdx (prepLines code) = none) :
    prepare_code_for_execution code = code := by
  rw [prepare_code_for_execution,
    if_neg (by rw [h1]; exact Bool.false_ne_true),
    if_neg (by rw [h2]; exact Bool.false_ne_true), h3]

theorem prepare_not_expr (code : Text) (idx : Nat)
    (h1 : (prepNonEmpty code).isEmpty = false)
    (h2 : is_simple_expression code = false)
    (h3 : lastNonEmptyIdx (prepLines code) = some idx)
    (h4 : is_expression_line ((prepNonEmpty code).getLastD []) = false) :
    prepare_code_for_execution code = code := by
  have h4' : is_expression_line ((prepNonEmpty code).getLast?.getD []) = false := by
    rw [← List.getLastD_eq_getLast?]
    exact h4
  rw [prepare_code_for_execution,
    if_neg (by rw [h1]; exact Bool.false_ne_true),
    if_neg (by rw [h2]; exact Bool.false_ne_true), h3]
  simp [h4']

theorem prepare_multi (code : Text) (idx : Nat)
    (h1 : (prepNonEmpty code).isEmpty = false)
    (h2 : is_simple_expression code = false)
    (h3 : lastNonEmptyIdx (prepLines code) = some idx)
    (h4 : is_expression_line ((prepNonEmpty code).getLastD []) = true) :
    prepare_code_for_execution code =
      if (!(strip (joinLines ((prepLines code).take idx))).isEmpty) = true then
        joinLines ((prepLines code).take idx) ++
          '\n' :: wrapLines (((prepLines code).getD idx []).length -
            (lstrip ((prepLines code).getD idx [])).length)
            ((prepNonEmpty code).getLastD [])
      else
        wrapLines (((prepLines code).getD idx []).length -
          (lstrip ((prepLines code).getD idx [])).length)
          ((prepNonEmpty code).getLastD []) := by
  have h4' : is_expression_line ((prepNonEmpty code).getLast?.getD []) = true := by
    rw [← List.getLastD_eq_getLast?]
    exact h4
  rw [prepare_code_for_execution,
    if_neg (by rw [h1]; exact Bool.false_ne_true),
    if_neg (by rw [h2]; exact Bool.false_ne_true), h3]
  simp [h4']

/-- A rewritten multi-line source (no preserved prefix) is a fixed point of
the transformer. -/
theorem prepare_wrapLines_fix (n : Nat) (last' : Text) (hnl : '\n' ∉ last') :
    prepare_code_for_execution (wrapLines n last') = wrapLines n last' := by
  have hNB : nonBlankStripped (wrapLines n last') =
      [strip (List.replicate n ' ' ++ txt "_result = " ++ last'),
        txt "print(_result)"] := nonBlankStripped_wrapLines n last' hnl
  have hprep : prepLines (wrapLines n last') =
      [rstrip (List.replicate n ' ' ++ txt "_result = " ++ last'),
        List.replicate n ' ' ++ txt "print(_result)"] := by
    rw [prepLines, rstrip_wrapLines, splitLines_wrapLines n last' hnl]
    simp only [List.map_cons, List.map_nil, rstrip_w2]
  have hpe : (prepNonEmpty (wrapLines n last')).isEmpty = false := by
    rw [prepNonEmpty_eq, hNB]
    rfl
  have hsimp2 : is_simple_expression (wrapLines n last') = false := by
    rw [is_simple_expression, classify_simple_of_two]
    · rfl
    · rw [simpleLines_eq, hNB]
      simp
  have hlast : (prepNonEmpty (wrapLines n last')).getLastD [] =
      txt "print(_result)" := by
    rw [prepNonEmpty_eq, hNB,
      (by simp : [strip (List.replicate n ' ' ++ txt "_result = " ++ last'),
        txt "print(_result)"] =
        [strip (List.replicate n ' ' ++ txt "_result = " ++ last')] ++
          [txt "print(_result)"]), List.getLastD_concat]
  have hidx : lastNonEmptyIdx (prepLines (wrapLines n last')) = some 1 := by
    rw [hprep]
    have h := lastNonEmptyIdx_concat
      [rstrip (List.replicate n ' ' ++ txt "_result = " ++ last')]
      (List.replicate n ' ' ++ txt "print(_result)")
      (by rw [strip_w2]; rfl)
    simpa using h
  exact prepare_not_expr _ 1 hpe hsimp2 hidx (by rw [hlast]; decide)

/-- A rewritten multi-line source (with a preserved prefix above the
wrapped tail) is a fixed point of the transformer. -/
theorem prepare_pre_wrapLines_fix (pre : Text) (n : Nat) (last' : Text)
    (hnl : '\n' ∉ last') :
    prepare_code_for_execution (pre ++ '\n' :: wrapLines n last') =
      pre ++ '\n' :: wrapLines n last' := by
  have hsplit : splitLines (pre ++ '\n' :: wrapLines n last') =
      splitLines pre ++
        [List.replicate n ' ' ++ txt "_result = " ++ last',
          List.replicate n ' ' ++ txt "print(_result)"] := by
    rw [splitLines_append_newline, splitLines_wrapLines n last' hnl]
  have hrY : rstrip (pre ++ '\n' :: wrapLines n last') =
      pre ++ '\n' :: wrapLines n last' := by
    have h : pre ++ '\n' :: wrapLines n last' =
        (pre ++ '\n' :: (List.replicate n ' ' ++ txt "_result = " ++ last' ++
          '\n' :: (List.replicate n ' ' ++ txt "print(_result"))) ++ [')'] := by
      rw [wrapLines_concat]
      simp
    rw [h]
    exact rstrip_concat_nonspace (by decide) _
  have hfilter : List.filter (fun x => !List.isEmpty x)
      (List.map strip
        [List.replicate n ' ' ++ txt "_result = " ++ last',
          List.replicate n ' ' ++ txt "print(_result)"]) =
      [strip (List.replicate n ' ' ++ txt "_result = " ++ last'),
        txt "print(_result)"] := by
    have h := nonBlankStripped_wrapLines n last' hnl
    rw [nonBlankStripped, splitLines_wrapLines n last' hnl] at h
    exact h
  have hNB : nonBlankStripped (pre ++ '\n' :: wrapLines n last') =
      nonBlankStripped pre ++
        [strip (List.replicate n ' ' ++ txt "_result = " ++ last'),
          txt "print(_result)"] := by
    rw [nonBlankStripped, hsplit, List.map_append, List.filter_append, hfilter]
    rfl
  have hprep : prepLines (pre ++ '\n' :: wrapLines n last') =
      (splitLines pre).map rstrip ++
        [rstrip (List.replicate n ' ' ++ txt "_result = " ++ last'),
          List.replicate n ' ' ++ txt "print(_result)"] := by
    rw [prepLines, hrY, hsplit, List.map_append]
    simp only [List.map_cons, List.map_nil, rstrip_w2]
  have hpe : (prepNonEmpty (pre ++ '\n' :: wrapLines n last')).isEmpty = false := by
    rw [prepNonEmpty_eq, hNB]
    simp
  have hsimp2 : is_simple_expression (pre ++ '\n' :: wrapLines n last') = false := by
    rw [is_simple_expression, classify_simple_of_two]
    · rfl
    · rw [simpleLines_eq, hNB]
      simp
  have hlast : (prepNonEmpty (pre ++ '\n' :: wrapLines n last')).getLastD [] =
      txt "print(_result)" := by
    rw [prepNonEmpty_eq, hNB,
      (by simp : nonBlankStripped pre ++
        [strip (List.replicate n ' ' ++ txt "_result = " ++ last'),
          txt "print(_result)"] =
        (nonBlankStripped pre ++
          [strip (List.replicate n ' ' ++ txt "_result = " ++ last')]) ++
          [txt "print(_result)"]), List.getLastD_concat]
  have hidx : lastNonEmptyIdx (prepLines (pre ++ '\n' :: wrapLines n last')) =
      some (((splitLines pre).map rstrip ++
        [rstrip (List.replicate n ' ' ++ txt "_result = " ++ last')]).length) := by
    rw [hprep,
      (by simp : (splitLines pre).map rstrip ++
        [rstrip (List.replicate n ' ' ++ txt "_result = " ++ last'),
          List.replicate n ' ' ++ txt "print(_result)"] =
        ((splitLines pre).map rstrip ++
          [rstrip (List.replicate n ' ' ++ txt "_result = " ++ last')]) ++
          [List.replicate n ' ' ++ txt "print(_result)"])]
    exact lastNonEmptyIdx_concat _ _ (by rw [strip_w2]; rfl)
  exact prepare_not_expr _ _ hpe hsimp2 hidx (by rw [hlast]; decide)

/-- Case analysis on the transformer's result: it returns the source
unchanged, the single-expression rewrite, or a wrapped tail (with or
without a preserved prefix) whose captured line contains no newline. -/
theorem prepare_cases (code : Text) :
    prepare_code_for_execution code = code ∨
      prepare_code_for_execution code = fastWrap code ∨
      ∃ n last', '\n' ∉ last' ∧
        (prepare_code_for_execution code = wrapLines n last' ∨
          ∃ pre, prepare_code_for_execution code =
            pre ++ '\n' :: wrapLines n last') := by
  by_cases h1 : (prepNonEmpty code).isEmpty = true
  · exact Or.inl (prepare_blank code h1)
  · have h1' : (prepNonEmpty code).isEmpty = false := by
      simpa using h1
    by_cases h2 : is_simple_expression code = true
    · refine Or.inr (Or.inl ?_)
      rw [prepare_code_for_execution,
        if_neg (by rw [h1']; exact Bool.false_ne_true), if_pos h2]
    · have h2' : is_simple_expression code = false := by
        simpa using h2
      cases h3 : lastNonEmptyIdx (prepLines code) with
      | none => exact Or.inl (prepare_idx_none code h1' h2' h3)
      | some idx =>
        by_cases h4 : is_expression_line ((prepNonEmpty code).getLastD []) = true
        · have hmem : (prepNonEmpty code).getLastD [] ∈ prepNonEmpty code := by
            apply getLastD_mem
            intro hh
            rw [hh] at h1'
            simp at h1'
          have hnl := mem_prepNonEmpty_no_nl hmem
          refine Or.inr (Or.inr
            ⟨((prepLines code).getD idx []).length -
              (lstrip ((prepLines code).getD idx [])).length,
              (prepNonEmpty code).getLastD [], hnl, ?_⟩)
          rw [prepare_multi code idx h1' h2' h3 h4]
          by_cases h5 :
            (!(strip (joinLines ((prepLines code).take idx))).isEmpty) = true
          · exact Or.inr ⟨_, by rw [if_pos h5]⟩
          · exact Or.inl (by rw [if_neg h5])
        · exact Or.inl (prepare_not_expr code idx h1' h2' h3 (by simpa using h4))

/-- C10: the transformer is idempotent — applying it to its own output
returns that output unchanged, because every rewritten source ends in the
`print(_result)` line, which both classifiers exclude from rewriting. -/
theorem c10_prepare_idempotent (code : Text) :
    prepare_code_for_execution (prepare_code_for_execution code) =
      prepare_code_for_execution code := by
  rcases prepare_cases code with h | h | ⟨n, last', hnl, h | ⟨pre, h⟩⟩
  · rw [h]
    exact h
  · rw [h]
    exact prepare_fastWrap_fix code
  · rw [h]
    exact prepare_wrapLines_fix n last' hnl
  · rw [h]
    exact prepare_pre_wrapLines_fix pre n last' hnl

theorem mem_prepLines_no_nl {code l : Text} (h : l ∈ prepLines code) :
    '\n' ∉ l := by
  rw [prepLines] at h
  obtain ⟨p, hp, rfl⟩ := List.mem_map.mp h
  intro hin
  exact mem_splitLines_no_nl hp (mem_of_mem_rstrip hin)

/-- C2 counterexample: the transformer right-strips every line, so the
first line `"x = 1 "` (with a trailing space) of a two-line input is NOT
preserved byte-for-byte — its trailing space is dropped. -/
theorem c2_counterexample :
    prepare_code_for_execution (txt "x = 1 \n2+2") =
      txt "x = 1\n_result = 2+2\nprint(_result)" ∧
      prepare_code_for_execution (txt "x = 1 \n2+2") ≠
        txt "x = 1 \n_result = 2+2\nprint(_result)" := by
  constructor
  · decide
  · decide

/-- C2 (amended): on the multi-line path, the lines of the transformer's
output are the right-stripped prior lines (dropped entirely when they are
all blank), followed by exactly two lines: the capture of the stripped
last non-blank line and the print of the temporary, both indented with as
many space characters as the original last line's leading whitespace;
moreover, line `i` of the line list used for reassembly is exactly the
right-strip of line `i` of the input's (right-stripped) line split. -/
theorem c2_frame (code : Text) (idx : Nat)
    (h1 : (prepNonEmpty code).isEmpty = false)
    (h2 : is_simple_expression code = false)
    (h3 : lastNonEmptyIdx (prepLines code) = some idx)
    (h4 : is_expression_line ((prepNonEmpty code).getLastD []) = true) :
    splitLines (prepare_code_for_execution code) =
      (if (strip (joinLines ((prepLines code).take idx))).isEmpty = true then []
        else (prepLines code).take idx) ++
        [List.replicate (((prepLines code).getD idx []).length -
            (lstrip ((prepLines code).getD idx [])).length) ' ' ++
            txt "_result = " ++ (prepNonEmpty code).getLastD [],
          List.replicate (((prepLines code).getD idx []).length -
            (lstrip ((prepLines code).getD idx [])).length) ' ' ++
            txt "print(_result)"] ∧
      ∀ i : Nat, (prepLines code)[i]? =
        ((splitLines (rstrip code))[i]?).map rstrip := by
  have hmem : (prepNonEmpty code).getLastD [] ∈ prepNonEmpty code := by
    apply getLastD_mem
    intro hh
    rw [hh] at h1
    simp at h1
  have hnl := mem_prepNonEmpty_no_nl hmem
  constructor
  · rw [prepare_multi code idx h1 h2 h3 h4]
    by_cases h5 : (strip (joinLines ((prepLines code).take idx))).isEmpty = true
    · rw [if_neg (by rw [h5]; decide), if_pos h5,
        splitLines_wrapLines _ _ hnl]
      rfl
    · have h5' : (strip (joinLines ((prepLines code).take idx))).isEmpty = false := by
        simpa using h5
      have htake : (prepLines code).take idx ≠ [] := by
        intro hh
        rw [hh] at h5'
        simp [joinLines, strip, rstrip, lstrip] at h5'
      have hfree : ∀ l ∈ (prepLines code).take idx, '\n' ∉ l := by
        intro l hl
        exact mem_prepLines_no_nl (List.mem_of_mem_take hl)
      rw [if_pos (by rw [h5']; decide), if_neg h5,
        splitLines_append_newline, splitLines_joinLines htake hfree,
        splitLines_wrapLines _ _ hnl]
  · intro i
    rw [prepLines, List.getElem?_map]

theorem c2_frame_witness :
    ((prepNonEmpty (txt "x = 1\n2+2")).isEmpty = false ∧
      is_simple_expression (txt "x = 1\n2+2") = false ∧
      lastNonEmptyIdx (prepLines (txt "x = 1\n2+2")) = some 1 ∧
      is_expression_line ((prepNonEmpty (txt "x = 1\n2+2")).getLastD []) = true) ∧
      splitLines (prepare_code_for_execution (txt "x = 1\n2+2")) =
        (if (strip (joinLines ((prepLines (txt "x = 1\n2+2")).take 1))).isEmpty =
            true then []
          else (prepLines (txt "x = 1\n2+2")).take 1) ++
          [List.replicate (((prepLines (txt "x = 1\n2+2")).getD 1 []).length -
              (lstrip ((prepLines (txt "x = 1\n2+2")).getD 1 [])).length) ' ' ++
              txt "_result = " ++ (prepNonEmpty (txt "x = 1\n2+2")).getLastD [],
            List.replicate (((prepLines (txt "x = 1\n2+2")).getD 1 []).length -
              (lstrip ((prepLines (txt "x = 1\n2+2")).getD 1 [])).length) ' ' ++
              txt "print(_result)"] := by
  refine ⟨⟨by decide, by decide, by decide, by decide⟩, ?_⟩
  exact (c2_frame (txt "x = 1\n2+2") 1 (by decide) (by decide) (by decide)
    (by decide)).1
